import Mathlib

/-!
Verification of the PPO training core of this repository: the experience
datasets (`src/algorithms/dataset.py`), the loss functions
(`src/algorithms/losses.py`) and the advantage/return estimator
(`algorithms/utils.py`, modelled from the specification since its source
file is not part of the repository snapshot).

Tensors of rationals suffice for the dataset layer, which only moves and
adds numbers; the loss layer uses real numbers because it involves
`exp`, `log` and square roots.
-/

set_option autoImplicit false

/-- One environment transition, the `Memory` namedtuple of
`src/algorithms/dataset.py` (fields `state, action, action_log_prob,
reward, done, value`).  The tensor-valued fields are modelled as
2-dimensional rational arrays so that the `.flatten()` calls of
`__getitem__` are observable; `done` is the 0/1 flag as a rational. -/
structure Memory where
  state : List (List ℚ)
  action : List (List ℚ)
  action_log_prob : List (List ℚ)
  reward : ℚ
  done : ℚ
  value : ℚ
deriving DecidableEq

/-- Modelled from the spec: `get_gae_advantages` of `algorithms/utils.py`
(imported by `dataset.py` but absent from the source snapshot).
Spec 4.1: iterate the episode in reverse chronological order keeping a
running accumulator `gae`; at each step
`delta = reward + gam * next_value * (1 - done) - value` and
`gae = delta + gam * lam * (1 - done) * gae`, where `next_value` is the
value of the following transition, or 0 at the final step; return the
advantages in forward chronological order.  The forward recursion below
is that computation: the head of the already-computed tail is the
accumulator value produced by the chronologically later step. -/
def get_gae_advantages (gam lam : ℚ) : List Memory → List ℚ
  | [] => []
  | m :: rest =>
    let tail := get_gae_advantages gam lam rest
    let next_value : ℚ := match rest with | [] => 0 | m2 :: _ => m2.value
    let gae_next : ℚ := match tail with | [] => 0 | g :: _ => g
    let delta : ℚ := m.reward + gam * next_value * (1 - m.done) - m.value
    (delta + gam * lam * (1 - m.done) * gae_next) :: tail

/-- Modelled from the spec: `get_returns` of `algorithms/utils.py`
(imported by `dataset.py` but absent from the source snapshot).
Spec 4.1: `return[i] = value[i] + advantage[i]`, elementwise, failing
with a shape/length error when the lengths differ; the failure is
modelled as `none`. -/
def get_returns (values advantages : List ℚ) : Option (List ℚ) :=
  if values.length = advantages.length then
    some (List.zipWith (fun v a => v + a) values advantages)
  else
    none

/-- The flattened per-field collections owned by `ExperienceDataset`
(`src/algorithms/dataset.py`, lines 18-49) after construction. -/
structure ExperienceDataset where
  states : List (List (List ℚ))
  actions : List (List (List ℚ))
  actions_log_prob : List (List (List ℚ))
  rewards : List ℚ
  done : List ℚ
  values : List ℚ
  advantages : List ℚ
  returns : List ℚ

/-- Model of `ExperienceDataset.__init__`: per episode, extend the advantage list
with that episode's GAE advantages and the transition list with the
episode; unzip the flattened transitions into the six field collections
(`zip(*self.episodes)` raises on an empty transition list, modelled as
`none`); finally compute the returns over the full flattened values and
advantages.  `gam` and `lam` are the configuration constants passed
through to the estimator. -/
def mkExperienceDataset (gam lam : ℚ) (episodes : List (List Memory)) :
    Option ExperienceDataset :=
  let advantages := (episodes.map (get_gae_advantages gam lam)).flatten
  let transitions := episodes.flatten
  if transitions.isEmpty then none
  else
    match get_returns (transitions.map Memory.value) advantages with
    | none => none
    | some rets =>
      some
        { states := transitions.map Memory.state
          actions := transitions.map Memory.action
          actions_log_prob := transitions.map Memory.action_log_prob
          rewards := transitions.map Memory.reward
          done := transitions.map Memory.done
          values := transitions.map Memory.value
          advantages := advantages
          returns := rets }

/-- Model of `ExperienceDataset.__len__`: the length of the flattened state
collection. -/
def ExperienceDataset.len (d : ExperienceDataset) : ℕ :=
  d.states.length

/-- Model of `ExperienceDataset.__getitem__`: the tuple of the eight parallel
collections at `idx`, with state, action and action log-prob flattened
to 1-D; an out-of-range index raises, modelled as `none`. -/
def ExperienceDataset.getItem (d : ExperienceDataset) (idx : ℕ) :
    Option (List ℚ × List ℚ × List ℚ × ℚ × ℚ × ℚ × ℚ × ℚ) := do
  let s ← d.states[idx]?
  let a ← d.actions[idx]?
  let lp ← d.actions_log_prob[idx]?
  let r ← d.rewards[idx]?
  let dn ← d.done[idx]?
  let v ← d.values[idx]?
  let adv ← d.advantages[idx]?
  let ret ← d.returns[idx]?
  pure (s.flatten, a.flatten, lp.flatten, r, dn, v, adv, ret)

/-- One auxiliary-phase record, the `MemoryAux` namedtuple of
`src/algorithms/dataset.py` (fields `state, actions, value`); the
constructor of `ExperienceAuxDataset` unpacks the three positions as
states, returns and old values, so field `actions` positionally holds
the returns.  Each record covers a block of timesteps: `state` is a
2-D array (one row per timestep), `actions` and `value` hold one scalar
per timestep. -/
structure MemoryAux where
  state : List (List ℚ)
  actions : List ℚ
  value : List ℚ
deriving DecidableEq

/-- The collections owned by `ExperienceAuxDataset`
(`src/algorithms/dataset.py`, lines 52-74): states stacked and reshaped
to one row per timestep, returns and old values reshaped to one
singleton row per timestep, and the optional externally supplied action
log-probabilities stored as given. -/
structure ExperienceAuxDataset where
  states : List (List ℚ)
  returns : List (List ℚ)
  old_values : List (List ℚ)
  action_log_probs : Option (List (List ℚ))

/-- Model of `ExperienceAuxDataset.__init__`: unzip the records
(`zip(*self.episodes_aux)` raises on an empty list, modelled as
`none`), stack and reshape, and store `action_log_probs` without any
inspection — in particular without any length check. -/
def mkExperienceAuxDataset (episodes_aux : List MemoryAux)
    (action_log_probs : Option (List (List ℚ))) : Option ExperienceAuxDataset :=
  if episodes_aux.isEmpty then none
  else
    some
      { states := (episodes_aux.map MemoryAux.state).flatten
        returns := ((episodes_aux.map MemoryAux.actions).flatten).map (fun x => [x])
        old_values := ((episodes_aux.map MemoryAux.value).flatten).map (fun x => [x])
        action_log_probs := action_log_probs }

/-- Model of `ExperienceAuxDataset.__len__`: the number of flattened state rows. -/
def ExperienceAuxDataset.len (d : ExperienceAuxDataset) : ℕ :=
  d.states.length

/-- Model of `ExperienceAuxDataset.__getitem__`: index the four parallel
collections in source order; indexing the absent (`None`) action
log-probability collection raises, modelled as `none`, as does an
out-of-range index. -/
def ExperienceAuxDataset.getItem (d : ExperienceAuxDataset) (idx : ℕ) :
    Option (List ℚ × List ℚ × List ℚ × List ℚ) := do
  let s ← d.states[idx]?
  let r ← d.returns[idx]?
  let v ← d.old_values[idx]?
  let lps ← d.action_log_probs
  let lp ← lps[idx]?
  pure (s, r, v, lp)

noncomputable section

/-- Model of `torch.clamp(x, lo, hi)`: clamp `x` into the interval `[lo, hi]`. -/
def clamp (x lo hi : ℝ) : ℝ :=
  min (max x lo) hi

/-- Model of `.mean()` of a tensor, as sum over element count. -/
def mean (xs : List ℝ) : ℝ :=
  xs.sum / xs.length

/-- Model of `ClipActorLoss.forward` (`src/algorithms/losses.py`, lines 15-26):
log-probabilities are batch-by-action-dimension matrices, advantages a
per-batch vector broadcast over the action dimension by
`.unsqueeze(-1)`; per element take the minimum of the unclipped and the
clipped surrogate and return the negated mean. -/
def clipActorLoss (eps : ℝ) (old_log new_log : List (List ℝ)) (adv : List ℝ) : ℝ :=
  let surr := List.zipWith
    (fun (pr : List ℝ × List ℝ) (a : ℝ) =>
      List.zipWith
        (fun o n =>
          min (Real.exp (n - o) * a) (clamp (Real.exp (n - o)) (1 - eps) (1 + eps) * a))
        pr.1 pr.2)
    (old_log.zip new_log) adv
  (-(mean surr.flatten))

/-- The clipped actor loss as the specification words it (spec 4.3):
first the matrix of probability ratios `exp(new - old)`, from it the
two surrogate matrices `ratio * adv` and `clip(ratio, 1-eps, 1+eps) * adv`,
then the negated mean of their elementwise minimum. -/
def clipActorLossSpecForm (eps : ℝ) (old_log new_log : List (List ℝ)) (adv : List ℝ) : ℝ :=
  let ratios := List.zipWith (List.zipWith (fun o n => Real.exp (n - o))) old_log new_log
  let surr1 := List.zipWith (fun (row : List ℝ) (a : ℝ) => row.map (fun x => x * a)) ratios adv
  let surr2 := List.zipWith
    (fun (row : List ℝ) (a : ℝ) => row.map (fun x => clamp x (1 - eps) (1 + eps) * a))
    ratios adv
  let mins := List.zipWith (List.zipWith min) surr1 surr2
  (-(mean mins.flatten))

/-- Model of `ClipCriticLoss.forward` (`src/algorithms/losses.py`, lines 46-60):
`value_clipped = old + clamp(new - old, -eps, eps)`; the loss is half
the mean of the elementwise maximum of the clipped and unclipped
squared errors against the returns. -/
def clipCriticLoss (eps : ℝ) (old_values new_values rets : List ℝ) : ℝ :=
  let surr := List.zipWith
    (fun (pr : ℝ × ℝ) (r : ℝ) =>
      let value_clipped := pr.1 + clamp (pr.2 - pr.1) (-eps) eps
      max ((value_clipped - r) ^ 2) ((pr.2 - r) ^ 2))
    (old_values.zip new_values) rets
  0.5 * mean surr

namespace SpectralEntropyLoss

/-- Model of `SpectralEntropyLoss.log` (`src/algorithms/losses.py`, line 74):
`t.clamp(min=eps).log()`, i.e. the logarithm of the input floored at
`eps`. -/
def log (eps t : ℝ) : ℝ :=
  Real.log (max t eps)

/-- Model of `SpectralEntropyLoss.entropy` (`src/algorithms/losses.py`, line 77):
`(-prob * self.log(prob)).sum()`. -/
def entropy (eps : ℝ) (prob : List ℝ) : ℝ :=
  (prob.map (fun p => -p * log eps p)).sum

end SpectralEntropyLoss

/-- Model of `softmax(dim=-1)` over one row of singular values. -/
def softmax (xs : List ℝ) : List ℝ :=
  xs.map (fun x => Real.exp x / (xs.map Real.exp).sum)

/-- One model parameter as seen by `SpectralEntropyLoss.forward`: only
its number of dimensions (`shape`) steers the control flow (parameters
with fewer than two dimensions are skipped). -/
structure Param where
  shape : List ℕ

/-- The contribution of one qualifying parameter to the spectral
entropy: the parameter is reshaped to a batch of matrices and
`torch.linalg.svdvals` gives one row of singular values per matrix
(`sv`, kept abstract — the spec excludes numerical-library internals);
each row is softmax-normalized and its Shannon entropy (with the `eps`
floor inside the logarithm) summed. -/
def spectralTerm (eps : ℝ) (sv : Param → List (List ℝ)) (p : Param) : ℝ :=
  ((sv p).map (fun row => SpectralEntropyLoss.entropy eps (softmax row))).sum

/-- The accumulated loss of `SpectralEntropyLoss.forward` before the
throttling step: the sum of the spectral-entropy contributions of all
parameters with at least two dimensions. -/
def spectralLossRaw (eps : ℝ) (sv : Param → List (List ℝ)) (ps : List Param) : ℝ :=
  ((ps.filter (fun p => 2 ≤ p.shape.length)).map (spectralTerm eps sv)).sum

/-- Model of `SpectralEntropyLoss.forward` (`src/algorithms/losses.py`, lines
80-109) as a state transition on the call counter `t`: accumulate the
spectral entropies, zero the loss when `t % update_rate != 0`,
increment the counter, and return `weight * loss` together with the new
counter. -/
def spectralForward (w eps : ℝ) (update_rate : ℕ) (sv : Param → List (List ℝ))
    (ps : List Param) (t : ℕ) : ℝ × ℕ :=
  let loss := spectralLossRaw eps sv ps
  let loss := if t % update_rate ≠ 0 then loss * 0 else loss
  (w * loss, t + 1)

/-- The losses returned by `n` consecutive calls of
`SpectralEntropyLoss.forward` on the same fixed model, starting from
call counter `t`. -/
def spectralCalls (w eps : ℝ) (update_rate : ℕ) (sv : Param → List (List ℝ))
    (ps : List Param) (t : ℕ) : ℕ → List ℝ
  | 0 => []
  | n + 1 =>
    let step := spectralForward w eps update_rate sv ps t
    step.1 :: spectralCalls w eps update_rate sv ps step.2 n

/-- Model of `torch.xlogy(a, b)`: `a * log b`, with the convention that a zero
first argument contributes zero; `torch.nn.functional.kl_div` computes
its pointwise term through it. -/
def xlogy (a b : ℝ) : ℝ :=
  if a = 0 then 0 else a * Real.log b

/-- Model of `KLDivLoss.forward` (`src/algorithms/losses.py`, lines 119-122):
`weight * F.kl_div(x, y, reduction="batchmean").mean()` where `x` holds
log-probabilities and `y` probabilities; the pointwise term is
`xlogy(y, y) - y * x` and `batchmean` divides the total by the batch
size (the trailing `.mean()` of a scalar is the identity).  No epsilon
floor is applied anywhere in this computation. -/
def klDivLoss (w : ℝ) (x y : List (List ℝ)) : ℝ :=
  w * ((List.zipWith (List.zipWith (fun xi yi => xlogy yi yi - yi * xi)) x y).flatten.sum
        / x.length)

/-- Modelled from the spec: the KL-divergence penalty as the uniform
floor policy of spec section 7 would have it — the probability is
floored at a configured `eps` before its logarithm is taken
(`y * (log (max y eps) - x)`), everything else as in `klDivLoss`. -/
def klDivFlooredSpec (w eps : ℝ) (x y : List (List ℝ)) : ℝ :=
  w * ((List.zipWith (List.zipWith (fun xi yi => yi * (Real.log (max yi eps) - xi))) x y).flatten.sum
        / x.length)

/-- The L2 norm of one weight row. -/
def l2norm (v : List ℝ) : ℝ :=
  Real.sqrt ((v.map (fun x => x ^ 2)).sum)

/-- Model of `F.normalize(weight, dim=-1)`: divide each row by its L2 norm
floored at the default `eps = 1e-12`. -/
def normalizeRow (v : List ℝ) : List ℝ :=
  v.map (fun x => x / max (l2norm v) 1e-12)

/-- The inner product of two rows, one entry of the
`einsum(norm_weight, norm_weight, "i d, j d -> i j")` matrix. -/
def dotProd (v w : List ℝ) : ℝ :=
  (List.zipWith (fun a b => a * b) v w).sum

/-- The per-weight orthogonality loss of `simba_orthogonal_loss`
(`src/algorithms/losses.py`, lines 141-148): row-normalize the weight,
form the cosine-similarity matrix of the normalized weight with
itself, and take the mean of the off-diagonal entries (the boolean
mask `~eye` collects them in row-major order). -/
def perWeightOrthLoss (weight : List (List ℝ)) : ℝ :=
  let nw := weight.map normalizeRow
  let offdiag := (List.range nw.length).flatMap
    (fun i => ((List.range nw.length).filter (fun j => j ≠ i)).map
      (fun j => dotProd (nw.getD i []) (nw.getD j [])))
  mean offdiag

/-- Model of `simba_orthogonal_loss` (`src/algorithms/losses.py`, lines 125-150)
over the list of weight matrices extracted from the matching
submodules (for each layer, the transposed input-side weight and the
output-side weight): the sum of the per-weight losses.  The module
traversal and weight extraction are structural and not modelled. -/
def simba_orthogonal_loss (weights : List (List (List ℝ))) : ℝ :=
  (weights.map perWeightOrthLoss).sum

end

/-! ### Helper lemmas -/

theorem gae_length (gam lam : ℚ) (e : List Memory) :
    (get_gae_advantages gam lam e).length = e.length := by
  induction e with
  | nil => rfl
  | cons m rest ih => simp [get_gae_advantages, ih]

theorem flatten_gae_length (gam lam : ℚ) (episodes : List (List Memory)) :
    ((episodes.map (get_gae_advantages gam lam)).flatten).length
      = episodes.flatten.length := by
  induction episodes with
  | nil => rfl
  | cons e es ih => simp [gae_length, ih]

theorem getElem?_zipWith_eq_some {α β γ : Type} (f : α → β → γ) :
    ∀ (as : List α) (bs : List β) (i : ℕ) (a : α) (b : β),
      as[i]? = some a → bs[i]? = some b →
      (List.zipWith f as bs)[i]? = some (f a b) := by
  intro as
  induction as with
  | nil => intro bs i a b ha _; simp at ha
  | cons x xs ih =>
    intro bs i a b ha hb
    cases bs with
    | nil => simp at hb
    | cons y ys =>
      cases i with
      | zero =>
        simp at ha hb
        simp [ha, hb]
      | succ n =>
        simp only [List.zipWith_cons_cons, List.getElem?_cons_succ] at ha hb ⊢
        exact ih ys n a b ha hb

theorem exists_of_mem_zipWith {α β γ : Type} {f : α → β → γ} :
    ∀ {as : List α} {bs : List β} {x : γ}, x ∈ List.zipWith f as bs →
      ∃ a b, a ∈ as ∧ b ∈ bs ∧ x = f a b := by
  intro as
  induction as with
  | nil => intro bs x hx; simp at hx
  | cons a as ih =>
    intro bs x hx
    cases bs with
    | nil => simp at hx
    | cons b bs =>
      simp only [List.zipWith_cons_cons, List.mem_cons] at hx
      rcases hx with rfl | hx
      · exact ⟨a, b, by simp, by simp, rfl⟩
      · obtain ⟨a2, b2, ha2, hb2, rfl⟩ := ih hx
        exact ⟨a2, b2, by simp [ha2], by simp [hb2], rfl⟩

theorem sum_of_forall_eq (c : ℝ) :
    ∀ l : List ℝ, (∀ x ∈ l, x = c) → l.sum = l.length * c := by
  intro l
  induction l with
  | nil => simp
  | cons x xs ih =>
    intro h
    have hx := h x (by simp)
    have ihs := ih (fun y hy => h y (by simp [hy]))
    simp [hx, ihs]
    ring

theorem mean_of_forall_eq (l : List ℝ) (c : ℝ) (h : ∀ x ∈ l, x = c) (hne : l ≠ []) :
    mean l = c := by
  have hlen : (l.length : ℝ) ≠ 0 :=
    Nat.cast_ne_zero.mpr (Nat.pos_iff_ne_zero.mp (List.length_pos.mpr hne))
  rw [mean, sum_of_forall_eq c l h, mul_comm, mul_div_assoc, div_self hlen, mul_one]

theorem getD_replicate {α : Type} (a d : α) :
    ∀ (n i : ℕ), i < n → (List.replicate n a).getD i d = a := by
  intro n
  induction n with
  | zero => intro i hi; omega
  | succ m ih =>
    intro i hi
    cases i with
    | zero => rfl
    | succ j => exact ih j (by omega)

/-! ### Claim theorems -/

/-- C5: for flattened value and advantage sequences of equal length `n`,
`get_returns` yields a sequence of length `n` with
`returns[i] = value[i] + advantage[i]` for every `i < n`; for sequences
of unequal length it fails with a length error (`none`) rather than
silently truncating or padding. -/
theorem get_returns_correct (V A : List ℚ) :
    (V.length = A.length →
      ∃ R, get_returns V A = some R ∧ R.length = V.length ∧
        ∀ (i : ℕ) (v a : ℚ), V[i]? = some v → A[i]? = some a → R[i]? = some (v + a)) ∧
    (V.length ≠ A.length → get_returns V A = none) := by
  constructor
  · intro hlen
    refine ⟨List.zipWith (fun v a => v + a) V A, ?_, ?_, ?_⟩
    · simp [get_returns, hlen]
    · simp [List.length_zipWith, hlen]
    · intro i v a hv ha
      exact getElem?_zipWith_eq_some _ V A i v a hv ha
  · intro hlen
    simp [get_returns, hlen]

theorem get_returns_correct_witness :
    (∃ R, get_returns [1, 2] [10, 20] = some R ∧ R.length = 2 ∧
      ∀ (i : ℕ) (v a : ℚ), ([1, 2] : List ℚ)[i]? = some v →
        ([10, 20] : List ℚ)[i]? = some a → R[i]? = some (v + a)) ∧
    get_returns [1] [] = none :=
  ⟨(get_returns_correct [1, 2] [10, 20]).1 (by decide),
   (get_returns_correct [1] []).2 (by decide)⟩

/-- C6: for an episode of length 1 with reward `r`, value `v` and done
flag `d`, the GAE computation returns the single advantage
`r + gam * 0 * (1 - d) - v` exactly (no trace-decay term), and for the
empty episode it returns the empty sequence rather than an error. -/
theorem gae_singleton_and_empty (gam lam r d v : ℚ) (s a lp : List (List ℚ)) :
    get_gae_advantages gam lam [⟨s, a, lp, r, d, v⟩] = [r + gam * 0 * (1 - d) - v] ∧
    get_gae_advantages gam lam [] = [] := by
  constructor
  · simp [get_gae_advantages]
  · rfl

/-- C10: constructing an `ExperienceDataset` from an empty list of
episodes, or from a list whose episodes are all empty, fails at
construction time (the unpacking of the per-field zip of zero
transitions raises) rather than producing a valid dataset of length 0. -/
theorem mkExperienceDataset_empty_is_error (gam lam : ℚ) (episodes : List (List Memory))
    (h : ∀ e ∈ episodes, e = []) :
    mkExperienceDataset gam lam episodes = none := by
  have hj : episodes.flatten = [] := by
    simp [List.flatten_eq_nil_iff]
    intro e he
    simpa using h e he
  simp [mkExperienceDataset, hj]

theorem mkExperienceDataset_empty_is_error_witness :
    mkExperienceDataset 1 1 [] = none ∧ mkExperienceDataset 1 1 [[], []] = none :=
  ⟨mkExperienceDataset_empty_is_error 1 1 [] (by simp),
   mkExperienceDataset_empty_is_error 1 1 [[], []] (by simp)⟩

/-- C9: an `ExperienceAuxDataset` constructed with `action_log_probs`
left at `None` is built successfully and answers length queries, but
every indexed access fails, because `__getitem__` unconditionally
indexes the absent collection; and no length check is performed at
construction time even when the collection is supplied. -/
theorem auxDataset_optional_log_probs (eas : List MemoryAux) (h : eas ≠ []) :
    (∃ d, mkExperienceAuxDataset eas none = some d ∧
      d.len = (eas.map (fun m => m.state.length)).sum ∧
      ∀ i, d.getItem i = none) ∧
    (∀ alp : List (List ℚ), ∃ d2, mkExperienceAuxDataset eas (some alp) = some d2) := by
  have hemp : eas.isEmpty = false := by
    simpa [List.isEmpty_iff] using h
  constructor
  · refine ⟨⟨(eas.map MemoryAux.state).flatten,
      ((eas.map MemoryAux.actions).flatten).map (fun x => [x]),
      ((eas.map MemoryAux.value).flatten).map (fun x => [x]), none⟩, ?_, ?_, ?_⟩
    · simp [mkExperienceAuxDataset, hemp]
    · simp [ExperienceAuxDataset.len, List.length_flatten, List.map_map]
      rfl
    · intro i
      simp only [ExperienceAuxDataset.getItem]
      cases ((eas.map MemoryAux.state).flatten)[i]? <;>
        cases ((((eas.map MemoryAux.actions).flatten).map (fun x => [x])))[i]? <;>
        cases ((((eas.map MemoryAux.value).flatten).map (fun x => [x])))[i]? <;>
        rfl
  · intro alp
    exact ⟨⟨(eas.map MemoryAux.state).flatten,
      ((eas.map MemoryAux.actions).flatten).map (fun x => [x]),
      ((eas.map MemoryAux.value).flatten).map (fun x => [x]), some alp⟩,
      by simp [mkExperienceAuxDataset, hemp]⟩

theorem auxDataset_optional_log_probs_witness :
    (∃ d, mkExperienceAuxDataset [⟨[[1]], [2], [3]⟩] none = some d ∧
      d.len = 1 ∧ ∀ i, d.getItem i = none) ∧
    (∀ alp : List (List ℚ),
      ∃ d2, mkExperienceAuxDataset [⟨[[1]], [2], [3]⟩] (some alp) = some d2) :=
  auxDataset_optional_log_probs [⟨[[1]], [2], [3]⟩] (by simp)

/-- C1 counterexample: `[[]]` is a non-empty list of episodes (its one
episode has length 0, so the claimed total length is 0), yet
construction fails — the unpacking of the per-field zip of zero
transitions raises — so no dataset with length 0 and the claimed
indexed access exists. -/
theorem experienceDataset_counterexample :
    ([([] : List Memory)] ≠ []) ∧
      mkExperienceDataset (99 / 100) (95 / 100) [[]] = none := by
  constructor
  · simp
  · rfl

/-- C1 (amended): for every list of episodes containing at least one
transition, construction succeeds, the dataset length is the sum of the
episode lengths, and indexed access at `i` returns the state, action,
action log-prob (each flattened to 1-D), reward, done and value of the
`i`-th transition in episode-concatenation order together with the
`i`-th advantage (computed per episode and concatenated in input order)
and the `i`-th return (the flattened value plus the advantage at the
same position). -/
theorem experienceDataset_correct (gam lam : ℚ) (episodes : List (List Memory))
    (h : episodes.flatten ≠ []) :
    ∃ d, mkExperienceDataset gam lam episodes = some d ∧
      d.len = (episodes.map List.length).sum ∧
      ∀ i m adv, episodes.flatten[i]? = some m →
        ((episodes.map (get_gae_advantages gam lam)).flatten)[i]? = some adv →
        d.getItem i = some (m.state.flatten, m.action.flatten, m.action_log_prob.flatten,
          m.reward, m.done, m.value, adv, m.value + adv) := by
  have hemp : episodes.flatten.isEmpty = false := by
    simpa [List.isEmpty_iff] using h
  have hlen : (episodes.flatten.map Memory.value).length
      = ((episodes.map (get_gae_advantages gam lam)).flatten).length := by
    rw [List.length_map, flatten_gae_length]
  have hret : get_returns (episodes.flatten.map Memory.value)
      ((episodes.map (get_gae_advantages gam lam)).flatten)
      = some (List.zipWith (fun v a => v + a) (episodes.flatten.map Memory.value)
          ((episodes.map (get_gae_advantages gam lam)).flatten)) := by
    rw [get_returns, if_pos hlen]
  refine ⟨⟨episodes.flatten.map Memory.state, episodes.flatten.map Memory.action,
    episodes.flatten.map Memory.action_log_prob, episodes.flatten.map Memory.reward,
    episodes.flatten.map Memory.done, episodes.flatten.map Memory.value,
    (episodes.map (get_gae_advantages gam lam)).flatten,
    List.zipWith (fun v a => v + a) (episodes.flatten.map Memory.value)
      ((episodes.map (get_gae_advantages gam lam)).flatten)⟩, ?_, ?_, ?_⟩
  · simp only [mkExperienceDataset, hemp, Bool.false_eq_true, if_false, hret]
  · show (episodes.flatten.map Memory.state).length = (episodes.map List.length).sum
    rw [List.length_map, List.length_flatten]
  · intro i m adv hm hadv
    have hs : (episodes.flatten.map Memory.state)[i]? = some m.state := by
      rw [List.getElem?_map, hm]; rfl
    have ha : (episodes.flatten.map Memory.action)[i]? = some m.action := by
      rw [List.getElem?_map, hm]; rfl
    have hlp : (episodes.flatten.map Memory.action_log_prob)[i]?
        = some m.action_log_prob := by
      rw [List.getElem?_map, hm]; rfl
    have hr : (episodes.flatten.map Memory.reward)[i]? = some m.reward := by
      rw [List.getElem?_map, hm]; rfl
    have hd : (episodes.flatten.map Memory.done)[i]? = some m.done := by
      rw [List.getElem?_map, hm]; rfl
    have hv : (episodes.flatten.map Memory.value)[i]? = some m.value := by
      rw [List.getElem?_map, hm]; rfl
    have hzip : (List.zipWith (fun v a => v + a) (episodes.flatten.map Memory.value)
        ((episodes.map (get_gae_advantages gam lam)).flatten))[i]?
        = some (m.value + adv) :=
      getElem?_zipWith_eq_some _ _ _ i m.value adv hv hadv
    simp only [ExperienceDataset.getItem, hs, ha, hlp, hr, hd, hv, hadv, hzip,
      Option.some_bind, Option.bind_eq_bind, Option.pure_def]

theorem experienceDataset_correct_witness :
    ∃ d, mkExperienceDataset (99 / 100) (95 / 100) [[⟨[[1]], [[2]], [[3]], 4, 0, 5⟩]] = some d ∧
      d.len = 1 ∧
      ∀ i m adv,
        ([[(⟨[[1]], [[2]], [[3]], 4, 0, 5⟩ : Memory)]] : List (List Memory)).flatten[i]?
            = some m →
        (([[(⟨[[1]], [[2]], [[3]], 4, 0, 5⟩ : Memory)]] : List (List Memory)).map
            (get_gae_advantages (99 / 100) (95 / 100))).flatten[i]? = some adv →
        d.getItem i = some (m.state.flatten, m.action.flatten, m.action_log_prob.flatten,
          m.reward, m.done, m.value, adv, m.value + adv) :=
  experienceDataset_correct (99 / 100) (95 / 100) [[⟨[[1]], [[2]], [[3]], 4, 0, 5⟩]] (by simp)

/-- C2 counterexample: a model whose only parameter is 1-dimensional is
skipped by the loop, so the accumulated loss is zero and the 4th call
returns zero like the first three — there is no call with a non-zero
loss, contradicting "exactly one non-zero loss, on the 4th call,
regardless of model content". -/
theorem spectralEntropyLoss_counterexample :
    spectralCalls 0.02 1e-16 4 (fun _ => [[1, 2]]) [⟨[5]⟩] 1 4 = [0, 0, 0, 0] ∧
    ¬ ∃ x : ℝ, (spectralCalls 0.02 1e-16 4 (fun _ => [[1, 2]]) [⟨[5]⟩] 1 4)[3]? = some x ∧
      x ≠ 0 := by
  have hraw : spectralLossRaw 1e-16 (fun _ => [[1, 2]]) [⟨[5]⟩] = 0 := by
    simp [spectralLossRaw, List.filter]
  have hcalls : spectralCalls 0.02 1e-16 4 (fun _ => [[1, 2]]) [⟨[5]⟩] 1 4 = [0, 0, 0, 0] := by
    simp [spectralCalls, spectralForward, hraw]
  refine ⟨hcalls, ?_⟩
  rw [hcalls]
  rintro ⟨x, hx, hne⟩
  simp at hx
  exact hne hx.symm

/-- C2 (amended): the call counter starts at 1 and increments on every
call regardless of activity; the loss is zeroed on every call where
`counter mod update_period != 0`, and on an active call it equals
`weight` times the accumulated spectral entropy of the parameters with
at least two dimensions — so four consecutive calls on a fresh instance
with update_period 4 yield three zero losses and then that accumulated
value, which is non-zero only when the accumulated entropy is. -/
theorem spectralEntropyLoss_schedule (w eps : ℝ) (N : ℕ) (sv : Param → List (List ℝ))
    (ps : List Param) (t : ℕ) :
    (spectralForward w eps N sv ps t).2 = t + 1 ∧
    (t % N ≠ 0 → (spectralForward w eps N sv ps t).1 = 0) ∧
    (t % N = 0 → (spectralForward w eps N sv ps t).1 = w * spectralLossRaw eps sv ps) ∧
    spectralCalls w eps 4 sv ps 1 4 = [0, 0, 0, w * spectralLossRaw eps sv ps] := by
  refine ⟨rfl, ?_, ?_, ?_⟩
  · intro ht
    simp [spectralForward, ht]
  · intro ht
    simp [spectralForward, ht]
  · simp [spectralCalls, spectralForward]

theorem spectralEntropyLoss_schedule_witness :
    (spectralForward 0.02 1e-16 4 (fun _ => [[1, 2]]) [⟨[2, 3]⟩] 1).2 = 2 ∧
    (spectralForward 0.02 1e-16 4 (fun _ => [[1, 2]]) [⟨[2, 3]⟩] 1).1 = 0 ∧
    (spectralForward 0.02 1e-16 4 (fun _ => [[1, 2]]) [⟨[2, 3]⟩] 4).1
      = 0.02 * spectralLossRaw 1e-16 (fun _ => [[1, 2]]) [⟨[2, 3]⟩] :=
  ⟨(spectralEntropyLoss_schedule 0.02 1e-16 4 (fun _ => [[1, 2]]) [⟨[2, 3]⟩] 1).1,
   (spectralEntropyLoss_schedule 0.02 1e-16 4 (fun _ => [[1, 2]]) [⟨[2, 3]⟩] 1).2.1
     (by decide),
   (spectralEntropyLoss_schedule 0.02 1e-16 4 (fun _ => [[1, 2]]) [⟨[2, 3]⟩] 4).2.2.1
     (by decide)⟩

theorem critic_surr_eq (eps : ℝ) :
    ∀ (old_values new_values rets : List ℝ),
      old_values.length = new_values.length → new_values.length = rets.length →
      (∀ p ∈ old_values.zip new_values, |p.2 - p.1| ≤ eps) →
      List.zipWith (fun (pr : ℝ × ℝ) (r : ℝ) =>
          max ((pr.1 + clamp (pr.2 - pr.1) (-eps) eps - r) ^ 2) ((pr.2 - r) ^ 2))
        (old_values.zip new_values) rets
      = (new_values.zip rets).map (fun p => (p.1 - p.2) ^ 2) := by
  intro old_values
  induction old_values with
  | nil =>
    intro nv rets h1 h2 _
    have hnv : nv = [] := List.length_eq_zero.mp h1.symm
    subst hnv
    have hr : rets = [] := List.length_eq_zero.mp h2.symm
    subst hr
    rfl
  | cons o os ih =>
    intro nv rets h1 h2 hcl
    cases nv with
    | nil => simp at h1
    | cons n ns =>
      cases rets with
      | nil => simp at h2
      | cons r rs =>
        simp only [List.zip_cons_cons, List.zipWith_cons_cons, List.map_cons]
        have habs := abs_le.mp (hcl (o, n) (by simp))
        have hclamp : clamp (n - o) (-eps) eps = n - o := by
          rw [clamp, max_eq_left (by simpa using habs.1), min_eq_left habs.2]
        have hhead : max ((o + clamp (n - o) (-eps) eps - r) ^ 2) ((n - r) ^ 2)
            = (n - r) ^ 2 := by
          rw [hclamp, show o + (n - o) - r = n - r by ring, max_self]
        rw [hhead]
        exact congrArg _ (ih ns rs (by simpa using h1) (by simpa using h2)
          (fun p hp => hcl p (by simp [hp])))

/-- C4: whenever `|new - old| <= eps` holds elementwise, the clipped
value never differs from the new value, so `ClipCriticLoss.forward`
returns exactly `0.5 * mean((new - returns)^2)`, the clipped value loss
reducing to half the standard mean-squared error. -/
theorem clipCriticLoss_mse (eps : ℝ) (old_values new_values rets : List ℝ)
    (h1 : old_values.length = new_values.length)
    (h2 : new_values.length = rets.length)
    (hcl : ∀ p ∈ old_values.zip new_values, |p.2 - p.1| ≤ eps) :
    clipCriticLoss eps old_values new_values rets
      = 0.5 * mean ((new_values.zip rets).map (fun p => (p.1 - p.2) ^ 2)) := by
  simp only [clipCriticLoss]
  rw [critic_surr_eq eps old_values new_values rets h1 h2 hcl]

theorem clipCriticLoss_mse_witness :
    clipCriticLoss 0.4 [1] [1.2] [2]
      = 0.5 * mean ((([1.2] : List ℝ).zip [2]).map (fun p => (p.1 - p.2) ^ 2)) :=
  clipCriticLoss_mse 0.4 [1] [1.2] [2] (by simp) (by simp)
    (by
      intro p hp
      simp only [List.zip_cons_cons, List.zip_nil_right, List.mem_singleton] at hp
      subst hp
      rw [abs_le]
      constructor <;> norm_num)

theorem actor_row_eq (eps a : ℝ) :
    ∀ (o n : List ℝ),
      List.zipWith (fun oi ni =>
        min (Real.exp (ni - oi) * a)
          (clamp (Real.exp (ni - oi)) (1 - eps) (1 + eps) * a)) o n
      = List.zipWith min
          ((List.zipWith (fun oi ni => Real.exp (ni - oi)) o n).map (fun x => x * a))
          ((List.zipWith (fun oi ni => Real.exp (ni - oi)) o n).map
            (fun x => clamp x (1 - eps) (1 + eps) * a)) := by
  intro o
  induction o with
  | nil => intro n; simp
  | cons x xs ih =>
    intro n
    cases n with
    | nil => simp
    | cons y ys => simp [ih ys]

theorem actor_surr_eq (eps : ℝ) :
    ∀ (old_log new_log : List (List ℝ)) (adv : List ℝ),
      List.zipWith (fun (pr : List ℝ × List ℝ) (a : ℝ) =>
        List.zipWith (fun o n =>
          min (Real.exp (n - o) * a) (clamp (Real.exp (n - o)) (1 - eps) (1 + eps) * a))
          pr.1 pr.2)
        (old_log.zip new_log) adv
      = List.zipWith (List.zipWith min)
          (List.zipWith (fun (row : List ℝ) (a : ℝ) => row.map (fun x => x * a))
            (List.zipWith (List.zipWith (fun o n => Real.exp (n - o))) old_log new_log) adv)
          (List.zipWith
            (fun (row : List ℝ) (a : ℝ) => row.map (fun x => clamp x (1 - eps) (1 + eps) * a))
            (List.zipWith (List.zipWith (fun o n => Real.exp (n - o))) old_log new_log) adv) := by
  intro old_log
  induction old_log with
  | nil => intro nl adv; simp
  | cons o os ih =>
    intro nl adv
    cases nl with
    | nil => simp
    | cons n ns =>
      cases adv with
      | nil => simp
      | cons a as =>
        simp only [List.zip_cons_cons, List.zipWith_cons_cons]
        rw [actor_row_eq eps a o n]
        exact congrArg _ (ih ns as)

/-- C3: `ClipActorLoss.forward` returns the negated mean of the
elementwise minimum of `ratio * adv` and `clip(ratio, 1-eps, 1+eps) * adv`
with `ratio = exp(new - old)` and the advantages broadcast over the
action dimension (the spec-form computation `clipActorLossSpecForm`);
in particular, when all advantages are 0 the loss equals 0 exactly. -/
theorem clipActorLoss_correct (eps : ℝ) (old_log new_log : List (List ℝ)) (adv : List ℝ) :
    clipActorLoss eps old_log new_log adv = clipActorLossSpecForm eps old_log new_log adv ∧
    ((∀ x ∈ adv, x = 0) → clipActorLoss eps old_log new_log adv = 0) := by
  constructor
  · simp only [clipActorLoss, clipActorLossSpecForm]
    rw [actor_surr_eq eps old_log new_log adv]
  · intro h0
    have hz : ∀ x ∈ (List.zipWith (fun (pr : List ℝ × List ℝ) (a : ℝ) =>
        List.zipWith (fun o n =>
          min (Real.exp (n - o) * a) (clamp (Real.exp (n - o)) (1 - eps) (1 + eps) * a))
          pr.1 pr.2)
        (old_log.zip new_log) adv).flatten, x = 0 := by
      intro x hx
      rw [List.mem_flatten] at hx
      obtain ⟨row, hrow, hxrow⟩ := hx
      obtain ⟨pr, a, _, ha, rfl⟩ := exists_of_mem_zipWith hrow
      obtain ⟨o, n, _, _, rfl⟩ := exists_of_mem_zipWith hxrow
      rw [h0 a ha]
      simp
    simp only [clipActorLoss, mean]
    rw [List.sum_eq_zero hz]
    simp

theorem clipActorLoss_correct_witness :
    clipActorLoss 0.2 [[1]] [[2]] [0] = 0 :=
  (clipActorLoss_correct 0.2 [[1]] [[2]] [0]).2 (by simp)

/-- C7 counterexample: `KLDivLoss.forward` applies no epsilon floor
before its logarithm — at a target probability `exp(-2)` lying below a
floor of `exp(-1)`, the source computation differs from the uniformly
floored computation the claim describes, so the floor is not applied to
every entropy/log computation of the loss functions. -/
theorem klDiv_floor_counterexample :
    klDivLoss 0.01 [[0]] [[Real.exp (-2)]]
      ≠ klDivFlooredSpec 0.01 (Real.exp (-1)) [[0]] [[Real.exp (-2)]] := by
  have hc : (0 : ℝ) < Real.exp (-2) := Real.exp_pos _
  have hmax : max (Real.exp (-2)) (Real.exp (-1)) = Real.exp (-1) :=
    max_eq_right (Real.exp_le_exp.mpr (by norm_num))
  simp only [klDivLoss, klDivFlooredSpec, xlogy, List.zipWith_cons_cons,
    List.zipWith_nil_left, List.zipWith_nil_right, List.flatten_cons, List.flatten_nil,
    List.append_nil, List.sum_cons, List.sum_nil, List.length_cons, List.length_nil,
    hmax, Real.log_exp, if_neg (ne_of_gt hc)]
  intro heq
  norm_num at heq

/-- C7 (amended): `SpectralEntropyLoss` floors values at its configured
`eps` before every logarithm it takes — `entropy` only ever passes
`max p eps` to `log`, which is positive (hence never `log 0`) whenever
`eps > 0`; `KLDivLoss` however applies no such floor, delegating to the
library KL divergence, whose `xlogy` convention sends a zero target to
a zero contribution. -/
theorem spectralEntropy_floor (eps : ℝ) (prob : List ℝ) (heps : 0 < eps) :
    SpectralEntropyLoss.entropy eps prob
      = (prob.map (fun p => -p * Real.log (max p eps))).sum ∧
    ∀ p ∈ prob, 0 < max p eps := by
  refine ⟨rfl, ?_⟩
  intro p _
  exact lt_max_of_lt_right heps

theorem spectralEntropy_floor_witness :
    (SpectralEntropyLoss.entropy (1 / 2) [0, 1]
      = (([0, 1] : List ℝ).map (fun p => -p * Real.log (max p (1 / 2)))).sum) ∧
    ∀ p ∈ ([0, 1] : List ℝ), 0 < max p (1 / 2) :=
  spectralEntropy_floor (1 / 2) [0, 1] (by norm_num)

theorem dotProd_map_self (f : ℝ → ℝ) (v : List ℝ) :
    dotProd (v.map f) (v.map f) = (v.map (fun x => f x * f x)).sum := by
  induction v with
  | nil => rfl
  | cons x xs ih =>
    simp only [List.map_cons, dotProd, List.zipWith_cons_cons, List.sum_cons] at *
    rw [ih]

theorem sq_sum_nonneg (v : List ℝ) : 0 ≤ (v.map (fun x => x ^ 2)).sum := by
  apply List.sum_nonneg
  intro x hx
  obtain ⟨y, _, rfl⟩ := List.mem_map.mp hx
  positivity

theorem l2norm_sq (v : List ℝ) : l2norm v ^ 2 = (v.map (fun x => x ^ 2)).sum :=
  Real.sq_sqrt (sq_sum_nonneg v)

theorem dotProd_normalizeRow_self (v : List ℝ) (h : (1e-12 : ℝ) ≤ l2norm v) :
    dotProd (normalizeRow v) (normalizeRow v) = 1 := by
  have hpos : 0 < l2norm v := lt_of_lt_of_le (by norm_num) h
  rw [normalizeRow, max_eq_left h, dotProd_map_self]
  have hfun : (fun x => x / l2norm v * (x / l2norm v))
      = fun x => x ^ 2 * (1 / l2norm v ^ 2) := by
    funext x
    field_simp
    ring
  rw [hfun, List.sum_map_mul_right, ← l2norm_sq]
  field_simp

theorem getD_map_of_fixed {α β : Type} (f : α → β) (l : List α) (d : α) :
    ∀ i : ℕ, (l.map f).getD i (f d) = f (l.getD i d) := by
  induction l with
  | nil => intro i; rfl
  | cons x xs ih =>
    intro i
    cases i with
    | zero => rfl
    | succ j => simp only [List.map_cons, List.getD_cons_succ]; exact ih j

theorem normalizeRow_of_unit (v : List ℝ) (h : l2norm v = 1) : normalizeRow v = v := by
  rw [normalizeRow, h, max_eq_left (by norm_num)]
  simp

theorem offdiag_nonempty {α : Type} (g : ℕ → ℕ → α) (n : ℕ) (hn : 2 ≤ n) :
    (List.range n).flatMap
      (fun i => ((List.range n).filter (fun j => j ≠ i)).map (fun j => g i j)) ≠ [] := by
  apply List.ne_nil_of_mem (a := g 0 1)
  rw [List.mem_flatMap]
  refine ⟨0, List.mem_range.mpr (by omega), ?_⟩
  rw [List.mem_map]
  exact ⟨1, List.mem_filter.mpr ⟨List.mem_range.mpr (by omega), by simp⟩, rfl⟩

theorem offdiag_forall {α : Type} (g : ℕ → ℕ → α) (n : ℕ) (P : α → Prop)
    (h : ∀ i j, i < n → j < n → j ≠ i → P (g i j)) :
    ∀ x ∈ (List.range n).flatMap
      (fun i => ((List.range n).filter (fun j => j ≠ i)).map (fun j => g i j)), P x := by
  intro x hx
  rw [List.mem_flatMap] at hx
  obtain ⟨i, hi, hxi⟩ := hx
  rw [List.mem_map] at hxi
  obtain ⟨j, hj, rfl⟩ := hxi
  obtain ⟨hjr, hji⟩ := List.mem_filter.mp hj
  exact h i j (List.mem_range.mp hi) (List.mem_range.mp hjr) (by simpa using hji)

theorem perWeightOrthLoss_replicate (v : List ℝ) (n : ℕ) (hn : 2 ≤ n)
    (h : (1e-12 : ℝ) ≤ l2norm v) : perWeightOrthLoss (List.replicate n v) = 1 := by
  rw [perWeightOrthLoss]
  simp only [List.map_replicate, List.length_replicate]
  apply mean_of_forall_eq _ _ ?_ (offdiag_nonempty _ n hn)
  exact offdiag_forall
    (fun i j => dotProd ((List.replicate n (normalizeRow v)).getD i [])
      ((List.replicate n (normalizeRow v)).getD j [])) n (fun x => x = 1)
    (fun i j hi hj _ => by
      show dotProd ((List.replicate n (normalizeRow v)).getD i [])
        ((List.replicate n (normalizeRow v)).getD j []) = 1
      rw [getD_replicate _ _ n i hi, getD_replicate _ _ n j hj]
      exact dotProd_normalizeRow_self v h)

theorem perWeightOrthLoss_orthonormal (W : List (List ℝ)) (hn : 2 ≤ W.length)
    (hunit : ∀ i, i < W.length → l2norm (W.getD i []) = 1)
    (horth : ∀ i j, i < W.length → j < W.length → i ≠ j →
      dotProd (W.getD i []) (W.getD j []) = 0) :
    perWeightOrthLoss W = 0 := by
  rw [perWeightOrthLoss]
  simp only [List.length_map]
  apply mean_of_forall_eq _ _ ?_ (offdiag_nonempty _ W.length hn)
  exact offdiag_forall
    (fun i j => dotProd ((W.map normalizeRow).getD i []) ((W.map normalizeRow).getD j []))
    W.length (fun x => x = 0)
    (fun i j hi hj hji => by
      have hgi : (W.map normalizeRow).getD i [] = normalizeRow (W.getD i []) :=
        getD_map_of_fixed normalizeRow W [] i
      have hgj : (W.map normalizeRow).getD j [] = normalizeRow (W.getD j []) :=
        getD_map_of_fixed normalizeRow W [] j
      rw [normalizeRow_of_unit _ (hunit i hi)] at hgi
      rw [normalizeRow_of_unit _ (hunit j hj)] at hgj
      show dotProd ((W.map normalizeRow).getD i []) ((W.map normalizeRow).getD j []) = 0
      rw [hgi, hgj]
      exact horth i j hi hj (fun he => hji he.symm))

/-- C8 (amended): for a weight matrix with at least two rows, if all
rows are identical with L2 norm at least the normalization floor
`1e-12`, the per-weight loss (the mean of the off-diagonal entries of
the cosine-similarity matrix of the row-normalized weight with itself)
equals 1; if the rows are orthonormal, it equals 0.  Identical non-zero
rows of norm below the floor give a loss below 1 (see the
counterexample). -/
theorem orthogonalLoss_extremes :
    (∀ (v : List ℝ) (n : ℕ), 2 ≤ n → (1e-12 : ℝ) ≤ l2norm v →
      perWeightOrthLoss (List.replicate n v) = 1) ∧
    (∀ W : List (List ℝ), 2 ≤ W.length →
      (∀ i, i < W.length → l2norm (W.getD i []) = 1) →
      (∀ i j, i < W.length → j < W.length → i ≠ j →
        dotProd (W.getD i []) (W.getD j []) = 0) →
      perWeightOrthLoss W = 0) :=
  ⟨fun v n hn h => perWeightOrthLoss_replicate v n hn h,
   fun W hn hu ho => perWeightOrthLoss_orthonormal W hn hu ho⟩

theorem orthogonalLoss_extremes_witness :
    perWeightOrthLoss (List.replicate 2 [(3 : ℝ), 4]) = 1 ∧
    perWeightOrthLoss [[(1 : ℝ), 0], [0, 1]] = 0 :=
  ⟨orthogonalLoss_extremes.1 [(3 : ℝ), 4] 2 (by norm_num)
    (by
      have h5 : l2norm [(3 : ℝ), 4] = 5 := by
        rw [l2norm, show (([(3 : ℝ), 4]).map (fun x => x ^ 2)).sum = 25 by norm_num,
          show (25 : ℝ) = 5 ^ 2 by norm_num, Real.sqrt_sq (by norm_num)]
      rw [h5]
      norm_num),
   orthogonalLoss_extremes.2 [[(1 : ℝ), 0], [0, 1]] (by norm_num)
    (by
      intro i hi
      have hi2 : i < 2 := by simpa using hi
      interval_cases i
      · rw [show ([[(1 : ℝ), 0], [0, 1]].getD 0 []) = [(1 : ℝ), 0] from rfl, l2norm,
          show (([(1 : ℝ), 0]).map (fun x => x ^ 2)).sum = 1 by norm_num, Real.sqrt_one]
      · rw [show ([[(1 : ℝ), 0], [0, 1]].getD 1 []) = [(0 : ℝ), 1] from rfl, l2norm,
          show (([(0 : ℝ), 1]).map (fun x => x ^ 2)).sum = 1 by norm_num, Real.sqrt_one])
    (by
      intro i j hi hj hij
      have hi2 : i < 2 := by simpa using hi
      have hj2 : j < 2 := by simpa using hj
      interval_cases i <;> interval_cases j
      · exact absurd rfl hij
      · norm_num [dotProd]
      · norm_num [dotProd]
      · exact absurd rfl hij)⟩

/-- C8 counterexample: a weight matrix whose two rows are identical and
non-zero but of L2 norm `1e-13`, below the `1e-12` normalization floor
of `F.normalize`, is divided by the floor instead of its norm; each
off-diagonal cosine entry is `0.01`, so the per-weight loss is `0.01`,
not 1. -/
theorem orthogonalLoss_counterexample :
    perWeightOrthLoss [[(1e-13 : ℝ)], [1e-13]] ≠ 1 := by
  have hnorm : l2norm [(1e-13 : ℝ)] = 1e-13 := by
    rw [l2norm, show (([(1e-13 : ℝ)]).map (fun x => x ^ 2)).sum = (1e-13 : ℝ) ^ 2 by simp,
      Real.sqrt_sq (by norm_num)]
  have hrow : normalizeRow [(1e-13 : ℝ)] = [0.1] := by
    rw [normalizeRow, hnorm, max_eq_right (by norm_num)]
    norm_num
  rw [perWeightOrthLoss]
  simp only [List.map_cons, List.map_nil, hrow, List.length_cons, List.length_nil]
  norm_num [List.range_succ, dotProd, mean]
